import Mathlib

/-!
# Verification of the herd-game backend round-resolution core

Shallow embedding, in Lean 4, of the pure game logic and the room/round
state machine of the `herd-game-backend` repository:

* `src/utils/answerNormalizer.js` (`normalizeAnswer`),
* `src/utils/gameLogic.js` (`analyzeRoundAnswers`, `determinePinkCowHolder`,
  `checkWinCondition`, winner selection),
* the socket handlers of the server entry point (`create_game`, `join_game`,
  `start_game`, `submit_answer`, `next_round`, `remove_player`,
  `reconnect_game`, `disconnect`), in their newer variant that performs the
  `playersAnswered` increment with an atomic `findOneAndUpdate` / `$inc`.

JavaScript strings are modelled as Lean `String` / `List Char`; the regular
expressions of the normalizer are translated operationally (whitespace and
word-character classes over the ASCII range used by the game).  MongoDB
documents become Lean structures, `findOne` becomes `List.find?`,
`findOneAndUpdate` becomes an update of the first matching list entry,
`updateMany` a `List.map`, and the unique compound indexes become explicit
pre-insert checks.  Randomness (room codes, question selection) and the
socket transport are irrelevant to the verified claims and appear only as
parameters.
-/

/-! ## Answer normalizer (`src/utils/answerNormalizer.js`)

The JS source is a pipeline over the input string:
`toLowerCase → trim → replace(/\s+/g,' ') → strip punctuation class →
replace(/s$/i,'') → replace(/\b(a|an|the)\b/g,'') → trim`.
-/

/-- The ASCII whitespace characters matched by the JS `\s` class and by
`String.prototype.trim` (space, tab, newline, carriage return, vertical tab,
form feed).  Non-ASCII whitespace does not occur in game answers and is not
modelled. -/
def isWsChar (c : Char) : Bool :=
  c = ' ' ∨ c = '\t' ∨ c = '\n' ∨ c = '\r' ∨ c = Char.ofNat 11 ∨ c = Char.ofNat 12

/-- JS regex word characters `\w` = `[A-Za-z0-9_]`, used for the `\b`
boundaries of the article-stripping regex. -/
def isWordChar (c : Char) : Bool :=
  ('a' ≤ c ∧ c ≤ 'z') ∨ ('A' ≤ c ∧ c ≤ 'Z') ∨ ('0' ≤ c ∧ c ≤ '9') ∨ c = '_'

/-- The punctuation class removed by the normalizer:
`[.,/#!$%^&*;:{}=\-_`~()]`.  The brace and backtick characters are written
via their code points. -/
def punctChars : List Char :=
  ['.', ',', '/', '#', '!', '$', '%', '^', '&', '*', ';', ':',
   Char.ofNat 123, Char.ofNat 125, '=', '-', '_', Char.ofNat 96, '~', '(', ')']

/-- Drop a maximal whitespace suffix (the right half of `trim`). -/
def dropTrailingWs : List Char → List Char
  | [] => []
  | c :: cs =>
    let r := dropTrailingWs cs
    if r = [] ∧ isWsChar c then [] else c :: r

/-- `String.prototype.trim`: drop whitespace from both ends. -/
def trimChars (l : List Char) : List Char :=
  dropTrailingWs (l.dropWhile isWsChar)

/-- `replace(/\s+/g, ' ')`: every maximal run of whitespace becomes a single
space. -/
def collapseWs : List Char → List Char
  | [] => []
  | [c] => if isWsChar c then [' '] else [c]
  | c₁ :: c₂ :: rest =>
    if isWsChar c₁ ∧ isWsChar c₂ then collapseWs (c₂ :: rest)
    else (if isWsChar c₁ then ' ' else c₁) :: collapseWs (c₂ :: rest)

/-- `replace(/[.,\/#!$%^&*;:{}=\-_`~()]/g, '')`. -/
def stripPunct (l : List Char) : List Char :=
  l.filter (fun c => !(c ∈ punctChars))

/-- `replace(/s$/i, '')`: remove a single trailing `s` (case-insensitive). -/
def stripTrailingS (l : List Char) : List Char :=
  match l.getLast? with
  | some c => if c = 's' ∨ c = 'S' then l.dropLast else l
  | none => l

/-- The three article words removed by `\b(a|an|the)\b`. -/
def isArticle (w : List Char) : Bool :=
  w = ['a'] ∨ w = ['a', 'n'] ∨ w = ['t', 'h', 'e']

/-- A finished word run is dropped when it is an article, kept otherwise. -/
def emitWord (w : List Char) : List Char :=
  if isArticle w then [] else w

/-- Worker for `replace(/\b(a|an|the)\b/g, '')`: `cur` is the word run read
so far.  Because `\b` requires a word/non-word transition, the regex matches
exactly the maximal word runs equal to `a`, `an` or `the`, which this
tokenizer removes. -/
def remArticlesAux (cur : List Char) : List Char → List Char
  | [] => emitWord cur
  | c :: cs =>
    if isWordChar c then remArticlesAux (cur ++ [c]) cs
    else emitWord cur ++ c :: remArticlesAux [] cs

/-- `replace(/\b(a|an|the)\b/g, '')`. -/
def removeArticles (l : List Char) : List Char :=
  remArticlesAux [] l

/-- The normalization pipeline on character lists, in source order. -/
def normChars (l : List Char) : List Char :=
  trimChars (removeArticles (stripTrailingS (stripPunct
    (collapseWs (trimChars (l.map Char.toLower))))))

/-- `normalizeAnswer` (`src/utils/answerNormalizer.js`).  A falsy argument
(`undefined`, `null`, `''`) yields `''`; the `String` embedding keeps the
empty-string case of that guard. -/
def normalizeAnswer (s : String) : String :=
  if s = "" then "" else String.mk (normChars s.data)

example : normalizeAnswer "Dogs!" = "dog" := by decide
example : normalizeAnswer "  the  big   CATS " = "big cat" := by decide
example : normalizeAnswer "ss" = "s" := by decide
example : normalizeAnswer "s" = "" := by decide

/-! ## Round tally (`src/utils/gameLogic.js`, `analyzeRoundAnswers`)

The handler stores one `Answer` document per submission; the tally is a pure
function of the round's answers, so the embedding takes the answer list
directly (the JS function's only effect is the `Answer.find({roundId})`
read). -/

/-- An `Answer` document (`src/models/Answer.js`), restricted to the fields
the game logic reads.  `gameId`/`roundId` are implicit in where the record is
stored; `timestamp` is unused by the logic. -/
structure AnswerRec where
  playerId : String
  username : String
  originalAnswer : String
  normalizedAnswer : String
deriving DecidableEq

/-- The distinct normalized answers, in first-occurrence order: the key set
of the JS `answerCounts` object. -/
def keyList (answers : List AnswerRec) : List String :=
  answers.foldl
    (fun ks a => if a.normalizedAnswer ∈ ks then ks else ks ++ [a.normalizedAnswer]) []

/-- The count `answerCounts[t]`: how many answers normalize to `t`. -/
def countOf (answers : List AnswerRec) (t : String) : Nat :=
  (answers.filter (fun a => a.normalizedAnswer = t)).length

/-- `Math.max(...Object.values(answerCounts))` over a nonempty map. -/
def tallyMaxCount (answers : List AnswerRec) : Nat :=
  ((keyList answers).map (countOf answers)).foldl max 0

/-- The canonical texts achieving the maximal count (`majorityAnswers`). -/
def majorityAnswers (answers : List AnswerRec) : List String :=
  (keyList answers).filter (fun t => countOf answers t = tallyMaxCount answers)

/-- The canonical texts given by exactly one player (`uniqueAnswers`). -/
def uniqueAnswers (answers : List AnswerRec) : List String :=
  (keyList answers).filter (fun t => countOf answers t = 1)

/-- Result record of `analyzeRoundAnswers`. -/
structure TallyResult where
  majorityAnswer : Option String
  uniqueAnswerPlayer : Option String
  scoringPlayers : List String
  allAnswers : List (String × String × String)
deriving DecidableEq

/-- `analyzeRoundAnswers` (`src/utils/gameLogic.js`): returns `null` when the
round has no answers; otherwise the majority answer (only when a single text
attains the maximal count), the unique answerer (only when a single text has
count 1, via `answers.find(...)` over the singleton `uniqueAnswers` list),
the scoring players, and the per-player display view. -/
def analyzeRoundAnswers (answers : List AnswerRec) : Option TallyResult :=
  if answers = [] then none
  else some
    { majorityAnswer :=
        match majorityAnswers answers with
        | [m] => some m
        | _ => none
      uniqueAnswerPlayer :=
        match uniqueAnswers answers with
        | [u] => (answers.find? (fun a => a.normalizedAnswer = u)).map (·.playerId)
        | _ => none
      scoringPlayers :=
        match majorityAnswers answers with
        | [m] => (answers.filter (fun a => a.normalizedAnswer = m)).map (·.playerId)
        | _ => []
      allAnswers := answers.map (fun a => (a.playerId, a.username, a.originalAnswer)) }

/-! ## Token rule (`src/utils/gameLogic.js`, `determinePinkCowHolder`)

JS truthiness of the two arguments is modelled through `Option.getD ""`:
`null`, `undefined` and `''` are all falsy, every other string truthy. -/

/-- `determinePinkCowHolder(currentHolder, uniqueAnswerPlayer)`. -/
def determinePinkCowHolder (currentHolder uniqueAnswerPlayer : Option String) :
    Option String :=
  if uniqueAnswerPlayer.getD "" ≠ "" ∧
      uniqueAnswerPlayer.getD "" ≠ currentHolder.getD "" then
    uniqueAnswerPlayer
  else if currentHolder.getD "" ≠ "" then currentHolder
  else none

/-! ## Win evaluation

`checkWinCondition` is the helper of `src/utils/gameLogic.js`; the server's
`submit_answer` handler inlines the same rule as a `filter` for the players
with at least 8 points that do not hold the pink cow, followed by a `reduce`
picking a highest score. -/

/-- A `Player` document (`src/models/Player.js`).  `score` defaults to `0`;
it is a `Number` in the schema and is embedded as `Int` so that
non-negativity is a statement, not a typing artifact. -/
structure PlayerRec where
  pid : String
  username : String
  isHost : Bool
  score : Int
  isConnected : Bool
  socketId : String
deriving DecidableEq

/-- `checkWinCondition(player, pinkCowHolder)`: at least 8 points and not the
cow holder (`player._id !== pinkCowHolder`; a string differs from `null`). -/
def checkWinCondition (p : PlayerRec) (pinkCowHolder : Option String) : Bool :=
  decide (8 ≤ p.score) &&
    (match pinkCowHolder with
     | some h => decide (p.pid ≠ h)
     | none => true)

/-- The handler's `potentialWinners`: players with `score >= 8` whose id
differs from the new cow holder. -/
def potentialWinners (players : List PlayerRec) (holder : Option String) :
    List PlayerRec :=
  (players.filter (fun p => 8 ≤ p.score)).filter
    (fun p => match holder with
              | some h => p.pid ≠ h
              | none => true)

/-- The handler's `reduce((prev, current) => (prev.score > current.score) ?
prev : current)`: on a tie the *current* (later) element is kept. -/
def reduceWinner (acc : PlayerRec) : List PlayerRec → PlayerRec
  | [] => acc
  | p :: ps => reduceWinner (if acc.score > p.score then acc else p) ps

/-- Winner selection of the `submit_answer` handler: `none` when
`potentialWinners` is empty, otherwise the `reduce` above. -/
def pickWinner (players : List PlayerRec) (holder : Option String) :
    Option PlayerRec :=
  match potentialWinners players holder with
  | [] => none
  | p :: ps => some (reduceWinner p ps)

example :
    analyzeRoundAnswers
      [⟨"A", "a", "dog", "dog"⟩, ⟨"B", "b", "Dogs", "dog"⟩, ⟨"C", "c", "cat", "cat"⟩]
      = some ⟨some "dog", some "C", ["A", "B"],
          [("A", "a", "dog"), ("B", "b", "Dogs"), ("C", "c", "cat")]⟩ := by decide

example : determinePinkCowHolder none (some "C") = some "C" := by decide
example : determinePinkCowHolder (some "B") (some "B") = some "B" := by decide

/-! ## Room state and the socket handlers (server entry point)

One `RoomState` models one room's documents: the `Game` document, its
`Player` documents and the `Answer` documents keyed by round number (the
`Round` documents of the newer handler variant carry no state the handlers
read back, so a round is represented by its number).  Mongo's
`findOneAndUpdate`/`player.save()` after `findOne` update the first matching
document, `updateMany` maps over all matches. -/

/-- `Game.status` enum (`src/models/Game.js`). -/
inductive GameStatus
  | waiting
  | inProgress
  | completed
deriving DecidableEq

/-- The `Game` document fields the handlers use. -/
structure GameRec where
  roomCode : String
  hostId : String
  status : GameStatus
  currentRound : Nat
  currentQuestion : String
  playersAnswered : Nat
  pinkCowHolder : Option String
  usedQuestions : List String
deriving DecidableEq

/-- One room's authoritative state. -/
structure RoomState where
  game : GameRec
  players : List PlayerRec
  answers : List (Nat × AnswerRec)
deriving DecidableEq

/-- Update the first document matching `pred` (Mongo `findOneAndUpdate`, or
`save()` after `findOne`). -/
def updateFirstPlayer (pred : PlayerRec → Bool) (f : PlayerRec → PlayerRec) :
    List PlayerRec → List PlayerRec
  | [] => []
  | p :: ps => if pred p then f p :: ps else p :: updateFirstPlayer pred f ps

/-- `Player.countDocuments({gameId, isConnected: true})`. -/
def connectedCount (players : List PlayerRec) : Nat :=
  (players.filter (fun p => p.isConnected)).length

/-- The answers stored for round `rn` (`Answer.find({roundId})`). -/
def roundAnswers (st : RoomState) (rn : Nat) : List AnswerRec :=
  (st.answers.filter (fun ra => ra.1 = rn)).map (·.2)

/-- The round-closing test of the `submit_answer` handler:
`game.playersAnswered >= connectedPlayers`, where `game.playersAnswered` is
the post-increment value returned by the atomic `findOneAndUpdate` with
`{new: true}`. -/
def closeGuard (postInc connected : Nat) : Bool :=
  connected ≤ postInc

/-- The externally observable outcome of one `submit_answer` call. -/
structure SubmitOutcome where
  /-- payload of a targeted `error` event, when one is emitted -/
  errorMsg : Option String
  /-- payload `(playersAnswered, totalPlayers)` of the `player_answered`
  broadcast, when it is emitted -/
  playerAnswered : Option (Nat × Nat)
  /-- the round-closing block was entered -/
  closeRan : Bool
  /-- a `round_completed` broadcast was emitted -/
  roundCompleted : Bool
  /-- payload of the `game_completed` broadcast, when a winner was found -/
  winner : Option PlayerRec
deriving DecidableEq

/-- The `submit_answer` handler (newer server variant), as one sequential
execution against a room snapshot:

1. `Game.findOneAndUpdate({_id, status: 'in-progress'}, {$inc:
   {playersAnswered: 1}}, {new: true})` — no match means no increment and an
   `Invalid game state` error;
2. `Player.findOne({gameId, socketId})` — failure leaves the increment in
   place and errors;
3. `new Answer(...).save()` — the `(roundId, playerId)` unique index makes a
   duplicate save throw, which the outer `catch` turns into an error, again
   leaving the increment in place;
4. `player_answered` broadcast, then the closing test
   `playersAnswered >= connectedPlayers`;
5. on close: tally, token rule, `$inc {score: 1}` via `updateMany` for the
   scoring players, reset of `playersAnswered` to 0, `round_completed`
   broadcast, and winner search (`filter` + `reduce`); a winner sets the
   game `completed` and is broadcast via `game_completed`. -/
def submitAnswer (st : RoomState) (sock text : String) : RoomState × SubmitOutcome :=
  if st.game.status ≠ GameStatus.inProgress then
    (st, ⟨some "Invalid game state", none, false, false, none⟩)
  else
    let postInc := st.game.playersAnswered + 1
    let st1 : RoomState := { st with game := { st.game with playersAnswered := postInc } }
    match st1.players.find? (fun p => p.socketId = sock) with
    | none => (st1, ⟨some "Player not found", none, false, false, none⟩)
    | some player =>
      let rn := st1.game.currentRound
      if (st1.answers.filter (fun ra => ra.1 = rn ∧ ra.2.playerId = player.pid)) ≠ [] then
        (st1, ⟨some "Failed to submit answer", none, false, false, none⟩)
      else
        let ans : AnswerRec := ⟨player.pid, player.username, text, normalizeAnswer text⟩
        let st2 : RoomState := { st1 with answers := st1.answers ++ [(rn, ans)] }
        let connected := connectedCount st2.players
        if closeGuard postInc connected then
          match analyzeRoundAnswers (roundAnswers st2 rn) with
          | none =>
            -- `results` is `null` and `results.uniqueAnswerPlayer` throws;
            -- the inner catch emits `Error completing round`.  Unreachable:
            -- the answer just saved is in the round.
            (st2, ⟨some "Error completing round", some (postInc, connected), true, false, none⟩)
          | some results =>
            let newHolder := determinePinkCowHolder st2.game.pinkCowHolder results.uniqueAnswerPlayer
            let players' := st2.players.map
              (fun p => if p.pid ∈ results.scoringPlayers then { p with score := p.score + 1 } else p)
            let g2 : GameRec := { st2.game with pinkCowHolder := newHolder, playersAnswered := 0 }
            match pickWinner players' newHolder with
            | some w =>
              ({ st2 with players := players',
                          game := { g2 with status := GameStatus.completed } },
               ⟨none, some (postInc, connected), true, true, some w⟩)
            | none =>
              ({ st2 with players := players', game := g2 },
               ⟨none, some (postInc, connected), true, true, none⟩)
        else
          (st2, ⟨none, some (postInc, connected), false, false, none⟩)

/-- The `start_game` handler: host check, then unconditionally
`status := 'in-progress'`, `currentRound := 1`, a fresh question (the random
draw is a parameter here) — the handler never inspects the current status.
Returns the optional targeted error. -/
def startGame (st : RoomState) (sock question : String) : RoomState × Option String :=
  if st.game.hostId ≠ sock then
    (st, some "Only host can start the game")
  else
    ({ st with game := { st.game with
        status := GameStatus.inProgress,
        currentRound := 1,
        currentQuestion := question,
        usedQuestions := [question] } }, none)

/-- The fresh room created by `create_game`: a `waiting` game and its host
player (score defaults to 0, connected). -/
def initialRoom (roomCode hostSock hostPid hostName : String) : RoomState :=
  { game := { roomCode := roomCode, hostId := hostSock, status := GameStatus.waiting,
              currentRound := 0, currentQuestion := "", playersAnswered := 0,
              pinkCowHolder := none, usedQuestions := [] }
    players := [⟨hostPid, hostName, true, 0, true, hostSock⟩]
    answers := [] }

/-- The room-level operations after room creation, one per socket handler.
Identifier inputs that the server generates (player ids, random questions)
are parameters of the operation. -/
inductive GameOp
  | submit (sock text : String)
  | start (sock question : String)
  | join (pid sock username : String)
  | reconnect (sock username : String)
  | next (sock question : String)
  | removePlayer (targetSock : String)
  | disconnect (sock : String)

/-- One step of the room state machine, handler by handler:

* `submit` / `start`: the functions above;
* `join` (`join_game`): an existing username is reconnected in place; a new
  username is admitted only while the game is `waiting`, with a fresh player
  document (score 0);
* `reconnect` (`reconnect_game`): requires a currently disconnected player
  with that username;
* `next` (`next_round`): host-only while `in-progress`; advances the round
  and draws a question;
* `removePlayer` / `disconnect`: mark the (first) matching player
  disconnected. -/
def applyOp (st : RoomState) : GameOp → RoomState
  | .submit sock text => (submitAnswer st sock text).1
  | .start sock question => (startGame st sock question).1
  | .join pid sock username =>
    match st.players.find? (fun p => p.username = username) with
    | some _ =>
      let ps := updateFirstPlayer (fun p => p.username = username)
        (fun p => { p with socketId := sock, isConnected := true }) st.players
      { st with players := ps }
    | none =>
      if st.game.status ≠ GameStatus.waiting then st
      else { st with players := st.players ++ [⟨pid, username, false, 0, true, sock⟩] }
  | .reconnect sock username =>
    if (st.players.find? (fun p => p.username = username ∧ !p.isConnected)).isSome then
      let ps := updateFirstPlayer (fun p => p.username = username ∧ !p.isConnected)
        (fun p => { p with socketId := sock, isConnected := true }) st.players
      { st with players := ps }
    else st
  | .next sock question =>
    if st.game.status = GameStatus.inProgress ∧ st.game.hostId = sock then
      { st with game := { st.game with
          currentRound := st.game.currentRound + 1,
          currentQuestion := question,
          usedQuestions := st.game.usedQuestions ++ [question] } }
    else st
  | .removePlayer targetSock =>
    let ps := updateFirstPlayer (fun p => p.socketId = targetSock)
      (fun p => { p with isConnected := false }) st.players
    { st with players := ps }
  | .disconnect sock =>
    let ps := updateFirstPlayer (fun p => p.socketId = sock)
      (fun p => { p with isConnected := false }) st.players
    { st with players := ps }

/-- Fold a sequence of operations over a room. -/
def applyOps (st : RoomState) (ops : List GameOp) : RoomState :=
  ops.foldl applyOp st

/-- Linear position of a status in `waiting → in-progress → completed`. -/
def statusRank : GameStatus → Nat
  | .waiting => 0
  | .inProgress => 1
  | .completed => 2

/-! ## Concurrency model for the round-closing rule

The `$inc` of `findOneAndUpdate` is atomic, so when `K` submissions race on
a fresh round the post-increment values they observe are exactly
`1, …, K` in some order; each submission then evaluates `closeGuard` against
the connected-player count (constantly `K` in the scenario of the claim).
The room's counter itself sees the `K` increments followed by the single
reset to `0` performed by the closing submission (the one that observed
`K`, hence the last increment). -/

/-- Writes the round protocol performs on `playersAnswered`. -/
inductive CounterEvent
  | inc
  | reset

/-- Effect of one counter write (`$inc {playersAnswered: 1}` or the closing
`{playersAnswered: 0}` update). -/
def applyCounterEvent (c : Nat) : CounterEvent → Nat
  | .inc => c + 1
  | .reset => 0

/-! ## General list helpers -/

theorem foldl_max_init_le (l : List Nat) : ∀ init : Nat, init ≤ l.foldl max init := by
  induction l with
  | nil => intro init; exact le_refl _
  | cons x l ih =>
    intro init
    exact le_trans (le_max_left init x) (ih (max init x))

theorem le_foldl_max (l : List Nat) : ∀ init : Nat, ∀ a ∈ l, a ≤ l.foldl max init := by
  induction l with
  | nil => intro init a ha; cases ha
  | cons x l ih =>
    intro init a ha
    rcases List.mem_cons.mp ha with rfl | ha
    · exact le_trans (le_max_right init a) (foldl_max_init_le l (max init a))
    · exact ih (max init x) a ha

theorem foldl_max_attained (l : List Nat) :
    ∀ init : Nat, l.foldl max init = init ∨ l.foldl max init ∈ l := by
  induction l with
  | nil => intro init; exact Or.inl rfl
  | cons x l ih =>
    intro init
    rw [List.foldl_cons]
    rcases ih (max init x) with h | h
    · rw [h]
      rcases max_choice init x with h' | h'
      · exact Or.inl h'
      · rw [h']
        exact Or.inr (List.mem_cons_self x l)
    · exact Or.inr (List.mem_cons_of_mem x h)

theorem eq_singleton_of_nodup_of_all_eq {α : Type} {l : List α} {m : α}
    (hnd : l.Nodup) (hm : m ∈ l) (hall : ∀ t ∈ l, t = m) : l = [m] := by
  match l, hm with
  | [x], _ =>
    have := hall x (List.mem_singleton_self x)
    simp [this]
  | x :: y :: l, _ =>
    exfalso
    have hx := hall x (by simp)
    have hy := hall y (by simp)
    rw [List.nodup_cons] at hnd
    exact hnd.1 (by simp [hx, hy.symm])

theorem mem_eq_of_length_eq_one {α : Type} {l : List α} {a b : α}
    (hl : l.length = 1) (ha : a ∈ l) (hb : b ∈ l) : a = b := by
  obtain ⟨x, rfl⟩ := List.length_eq_one.mp hl
  rw [List.mem_singleton] at ha hb
  rw [ha, hb]

/-! ## Facts about the tally's answer grouping -/

theorem mem_keyList_foldl (l : List AnswerRec) :
    ∀ (acc : List String) (t : String),
      t ∈ l.foldl (fun ks a =>
            if a.normalizedAnswer ∈ ks then ks else ks ++ [a.normalizedAnswer]) acc ↔
        t ∈ acc ∨ t ∈ l.map (·.normalizedAnswer) := by
  induction l with
  | nil => intro acc t; simp
  | cons a l ih =>
    intro acc t
    rw [List.foldl_cons]
    by_cases hmem : a.normalizedAnswer ∈ acc
    · rw [if_pos hmem, ih]
      simp only [List.map_cons, List.mem_cons]
      constructor
      · tauto
      · rintro (h | h | h)
        · exact Or.inl h
        · exact Or.inl (by rw [h]; exact hmem)
        · exact Or.inr h
    · rw [if_neg hmem, ih]
      simp only [List.mem_append, List.mem_singleton, List.map_cons, List.mem_cons]
      tauto

theorem mem_keyList (answers : List AnswerRec) (t : String) :
    t ∈ keyList answers ↔ ∃ a ∈ answers, a.normalizedAnswer = t := by
  unfold keyList
  rw [mem_keyList_foldl]
  simp [List.mem_map, eq_comm]

theorem keyList_nodup_foldl (l : List AnswerRec) :
    ∀ acc : List String, acc.Nodup →
      (l.foldl (fun ks a =>
        if a.normalizedAnswer ∈ ks then ks else ks ++ [a.normalizedAnswer]) acc).Nodup := by
  induction l with
  | nil => intro acc h; exact h
  | cons a l ih =>
    intro acc h
    rw [List.foldl_cons]
    by_cases hmem : a.normalizedAnswer ∈ acc
    · rw [if_pos hmem]; exact ih acc h
    · rw [if_neg hmem]
      refine ih _ ?_
      simp [List.nodup_append, h, hmem]

theorem keyList_nodup (answers : List AnswerRec) : (keyList answers).Nodup :=
  keyList_nodup_foldl answers [] List.nodup_nil

theorem one_le_countOf_of_mem_keyList {answers : List AnswerRec} {t : String}
    (h : t ∈ keyList answers) : 1 ≤ countOf answers t := by
  obtain ⟨a, ha, hnorm⟩ := (mem_keyList answers t).mp h
  have : a ∈ answers.filter (fun a => a.normalizedAnswer = t) :=
    List.mem_filter.mpr ⟨ha, by simp [hnorm]⟩
  have := List.length_pos.mpr (List.ne_nil_of_mem this)
  unfold countOf
  omega

theorem countOf_le_tallyMaxCount {answers : List AnswerRec} {t : String}
    (h : t ∈ keyList answers) : countOf answers t ≤ tallyMaxCount answers :=
  le_foldl_max _ 0 _ (List.mem_map_of_mem (countOf answers) h)

theorem tallyMaxCount_attained {answers : List AnswerRec} (h : answers ≠ []) :
    ∃ t ∈ keyList answers, countOf answers t = tallyMaxCount answers := by
  obtain ⟨a, l, rfl⟩ := List.exists_cons_of_ne_nil h
  have hmem : a.normalizedAnswer ∈ keyList (a :: l) :=
    (mem_keyList _ _).mpr ⟨a, by simp⟩
  rcases foldl_max_attained (((keyList (a :: l))).map (countOf (a :: l))) 0 with h0 | hin
  · exfalso
    have h1 := one_le_countOf_of_mem_keyList hmem
    have h2 := countOf_le_tallyMaxCount hmem
    unfold tallyMaxCount at h2
    omega
  · obtain ⟨t, ht, heq⟩ := List.mem_map.mp hin
    exact ⟨t, ht, heq⟩


theorem analyze_majorityAnswer_field {answers : List AnswerRec} {r : TallyResult}
    (h : answers ≠ []) (hr : analyzeRoundAnswers answers = some r) :
    r.majorityAnswer = (match majorityAnswers answers with
                        | [m] => some m
                        | _ => none) := by
  rw [analyzeRoundAnswers, if_neg h, Option.some.injEq] at hr
  rw [← hr]

theorem analyze_scoringPlayers_field {answers : List AnswerRec} {r : TallyResult}
    (h : answers ≠ []) (hr : analyzeRoundAnswers answers = some r) :
    r.scoringPlayers = (match majorityAnswers answers with
                        | [m] => (answers.filter
                            (fun a => a.normalizedAnswer = m)).map (·.playerId)
                        | _ => []) := by
  rw [analyzeRoundAnswers, if_neg h, Option.some.injEq] at hr
  rw [← hr]

theorem analyze_uniqueAnswerPlayer_field {answers : List AnswerRec} {r : TallyResult}
    (h : answers ≠ []) (hr : analyzeRoundAnswers answers = some r) :
    r.uniqueAnswerPlayer = (match uniqueAnswers answers with
                            | [u] => (answers.find?
                                (fun a => a.normalizedAnswer = u)).map (·.playerId)
                            | _ => none) := by
  rw [analyzeRoundAnswers, if_neg h, Option.some.injEq] at hr
  rw [← hr]

/-- C7: for a non-empty round, `analyzeRoundAnswers` defines
`majorityAnswer` exactly when a single canonical text attains the strictly
highest count (and then that text is it), `scoringPlayers` is exactly the
players whose canonical answer equals `majorityAnswer`, and a tie between
two or more texts for the maximum yields no majority and an empty scoring
set. -/
theorem analyzeRoundAnswers_majority (answers : List AnswerRec) (h : answers ≠ []) :
    ∃ r, analyzeRoundAnswers answers = some r ∧
      (∀ m, r.majorityAnswer = some m →
        m ∈ keyList answers ∧
        (∀ t ∈ keyList answers, t ≠ m → countOf answers t < countOf answers m) ∧
        r.scoringPlayers =
          (answers.filter (fun a => a.normalizedAnswer = m)).map (·.playerId) ∧
        (∀ p, p ∈ r.scoringPlayers ↔
          ∃ a ∈ answers, a.playerId = p ∧ a.normalizedAnswer = m)) ∧
      (∀ m ∈ keyList answers,
        (∀ t ∈ keyList answers, t ≠ m → countOf answers t < countOf answers m) →
        r.majorityAnswer = some m) ∧
      (2 ≤ (majorityAnswers answers).length →
        r.majorityAnswer = none ∧ r.scoringPlayers = []) := by
  obtain ⟨r, hr⟩ : ∃ r, analyzeRoundAnswers answers = some r :=
    ⟨_, by rw [analyzeRoundAnswers, if_neg h]⟩
  have hfm := analyze_majorityAnswer_field h hr
  have hfs := analyze_scoringPlayers_field h hr
  refine ⟨r, hr, ?_, ?_, ?_⟩
  · intro m hm
    rw [hfm] at hm
    rcases hmaj : majorityAnswers answers with _ | ⟨m', rest⟩
    · rw [hmaj] at hm; cases hm
    rcases rest with _ | ⟨b, rest'⟩
    swap
    · rw [hmaj] at hm; cases hm
    rw [hmaj] at hm
    simp only [Option.some.injEq] at hm
    rw [hm] at hmaj
    have hmem : m ∈ majorityAnswers answers := by rw [hmaj]; simp
    have hmf := List.mem_filter.mp hmem
    have hkey : m ∈ keyList answers := hmf.1
    have hmax : countOf answers m = tallyMaxCount answers := by
      have := hmf.2; simpa using this
    have hscor : r.scoringPlayers =
        (answers.filter (fun a => a.normalizedAnswer = m)).map (·.playerId) := by
      rw [hfs, hmaj]
    refine ⟨hkey, ?_, hscor, ?_⟩
    · intro t ht hne
      have hle : countOf answers t ≤ tallyMaxCount answers := countOf_le_tallyMaxCount ht
      have hneq : countOf answers t ≠ tallyMaxCount answers := by
        intro heq
        have : t ∈ majorityAnswers answers := List.mem_filter.mpr ⟨ht, by simp [heq]⟩
        rw [hmaj] at this
        exact hne (by simpa using this)
      omega
    · intro p
      rw [hscor]
      simp only [List.mem_map, List.mem_filter]
      constructor
      · rintro ⟨a, ⟨ha, hnorm⟩, rfl⟩
        exact ⟨a, ha, rfl, by simpa using hnorm⟩
      · rintro ⟨a, ha, rfl, hnorm⟩
        exact ⟨a, ⟨ha, by simp [hnorm]⟩, rfl⟩
  · intro m hm hdom
    have hmax : countOf answers m = tallyMaxCount answers := by
      obtain ⟨t, ht, htmax⟩ := tallyMaxCount_attained h
      by_cases heq : t = m
      · rw [heq] at htmax; exact htmax
      · have h1 := hdom t ht heq
        have h2 := countOf_le_tallyMaxCount hm
        omega
    have hsingle : majorityAnswers answers = [m] := by
      refine eq_singleton_of_nodup_of_all_eq
        ((keyList_nodup answers).filter _)
        (List.mem_filter.mpr ⟨hm, by simp [hmax]⟩) ?_
      intro t htmem
      have htf := List.mem_filter.mp htmem
      by_contra hne
      have hlt := hdom t htf.1 hne
      have : countOf answers t = tallyMaxCount answers := by simpa using htf.2
      omega
    rw [hfm, hsingle]
  · intro h2
    rcases hmaj : majorityAnswers answers with _ | ⟨m', rest⟩
    · rw [hmaj] at h2; simp at h2
    rcases rest with _ | ⟨b, rest'⟩
    · rw [hmaj] at h2; simp at h2
    constructor
    · rw [hfm, hmaj]
    · rw [hfs, hmaj]

/-- C8: for a non-empty round, `uniqueAnswerPlayer` is defined exactly when
exactly one canonical text has group size 1, and is then the player who
submitted the (unique) answer with that text; with zero or two-or-more
count-1 texts it is `null`. -/
theorem analyzeRoundAnswers_unique (answers : List AnswerRec) (h : answers ≠ []) :
    ∃ r, analyzeRoundAnswers answers = some r ∧
      (∀ u, uniqueAnswers answers = [u] →
        countOf answers u = 1 ∧
        ∃ a ∈ answers, a.normalizedAnswer = u ∧
          r.uniqueAnswerPlayer = some a.playerId ∧
          ∀ b ∈ answers, b.normalizedAnswer = u → b.playerId = a.playerId) ∧
      ((uniqueAnswers answers).length ≠ 1 → r.uniqueAnswerPlayer = none) := by
  obtain ⟨r, hr⟩ : ∃ r, analyzeRoundAnswers answers = some r :=
    ⟨_, by rw [analyzeRoundAnswers, if_neg h]⟩
  have hfu := analyze_uniqueAnswerPlayer_field h hr
  refine ⟨r, hr, ?_, ?_⟩
  · intro u hu
    have humem : u ∈ uniqueAnswers answers := by rw [hu]; simp
    have huf := List.mem_filter.mp humem
    have hcount : countOf answers u = 1 := by simpa using huf.2
    obtain ⟨a, ha, hnorm⟩ := (mem_keyList answers u).mp huf.1
    have hfind : answers.find? (fun b => b.normalizedAnswer = u) ≠ none := by
      intro hnone
      have := List.find?_eq_none.mp hnone a ha
      simp [hnorm] at this
    obtain ⟨a', hfind'⟩ := Option.ne_none_iff_exists'.mp hfind
    have ha'mem : a' ∈ answers := List.mem_of_find?_eq_some hfind'
    have ha'norm : a'.normalizedAnswer = u := by
      have := List.find?_some hfind'
      simpa using this
    refine ⟨hcount, a', ha'mem, ha'norm, ?_, ?_⟩
    · rw [hfu, hu]
      show (answers.find? (fun b => b.normalizedAnswer = u)).map (·.playerId)
          = some a'.playerId
      rw [hfind']
      rfl
    · intro b hb hbnorm
      have hbf : b ∈ answers.filter (fun x => x.normalizedAnswer = u) :=
        List.mem_filter.mpr ⟨hb, by simp [hbnorm]⟩
      have haf : a' ∈ answers.filter (fun x => x.normalizedAnswer = u) :=
        List.mem_filter.mpr ⟨ha'mem, by simp [ha'norm]⟩
      have : b = a' := mem_eq_of_length_eq_one hcount hbf haf
      rw [this]
  · intro hlen
    rcases huniq : uniqueAnswers answers with _ | ⟨u, rest⟩
    · rw [hfu, huniq]
    rcases rest with _ | ⟨b, rest'⟩
    · rw [huniq] at hlen; simp at hlen
    rw [hfu, huniq]

/-- C9: with real (non-empty) player identities, the token moves to the
unique answerer exactly when one is defined and differs from the current
holder; otherwise the result is the current holder, staying unset when no
holder exists.  (Player ids are MongoDB ObjectId strings, never `''`; the
two hypotheses record that.) -/
theorem determinePinkCowHolder_spec (currentHolder uniqueAnswerPlayer : Option String)
    (hc : currentHolder ≠ some "") (hu : uniqueAnswerPlayer ≠ some "") :
    (∀ u, uniqueAnswerPlayer = some u → currentHolder ≠ some u →
      determinePinkCowHolder currentHolder uniqueAnswerPlayer = some u) ∧
    (∀ u, uniqueAnswerPlayer = some u → currentHolder = some u →
      determinePinkCowHolder currentHolder uniqueAnswerPlayer = currentHolder) ∧
    (uniqueAnswerPlayer = none →
      determinePinkCowHolder currentHolder uniqueAnswerPlayer = currentHolder) := by
  refine ⟨?_, ?_, ?_⟩
  · rintro u rfl hne
    have hune : u ≠ "" := fun heq => hu (by rw [heq])
    cases currentHolder with
    | none => simp [determinePinkCowHolder, hune]
    | some c =>
      have hcu : u ≠ c := fun heq => hne (by rw [heq])
      simp [determinePinkCowHolder, hune, hcu]
  · rintro u rfl rfl
    have hune : u ≠ "" := fun heq => hu (by rw [heq])
    simp [determinePinkCowHolder, hune]
  · rintro rfl
    cases currentHolder with
    | none => simp [determinePinkCowHolder]
    | some c =>
      have hcne : c ≠ "" := fun heq => hc (by rw [heq])
      simp [determinePinkCowHolder, hcne]

/-- Witness for C9 at the spec's scenario: no current holder, unique
answerer `C` — the token moves to `C`. -/
theorem determinePinkCowHolder_spec_witness :
    determinePinkCowHolder none (some "C") = some "C" :=
  (determinePinkCowHolder_spec none (some "C") (by decide) (by decide)).1
    "C" rfl (by decide)

/-! ## Winner selection -/

theorem reduceWinner_spec (ps : List PlayerRec) :
    ∀ acc : PlayerRec,
      (reduceWinner acc ps = acc ∨ reduceWinner acc ps ∈ ps) ∧
      acc.score ≤ (reduceWinner acc ps).score ∧
      (∀ q ∈ ps, q.score ≤ (reduceWinner acc ps).score) ∧
      ∃ l₁ l₂, acc :: ps = l₁ ++ (reduceWinner acc ps) :: l₂ ∧
        ∀ q ∈ l₂, q.score < (reduceWinner acc ps).score := by
  induction ps with
  | nil =>
    intro acc
    refine ⟨Or.inl rfl, le_refl _, by simp, [], [], by simp [reduceWinner], by simp⟩
  | cons p ps ih =>
    intro acc
    have hred : reduceWinner acc (p :: ps)
        = reduceWinner (if acc.score > p.score then acc else p) ps := rfl
    obtain ⟨ihmem, ihacc, ihall, l₁, l₂, ihsplit, ihlast⟩ :=
      ih (if acc.score > p.score then acc else p)
    by_cases hgt : acc.score > p.score
    · rw [if_pos hgt] at ihmem ihacc ihall ihsplit ihlast
      rw [hred, if_pos hgt]
      refine ⟨?_, ihacc, ?_, ?_⟩
      · rcases ihmem with heq | hmem
        · exact Or.inl heq
        · exact Or.inr (List.mem_cons_of_mem p hmem)
      · intro q hq
        rcases List.mem_cons.mp hq with rfl | hq'
        · exact le_trans (le_of_lt hgt) ihacc
        · exact ihall q hq'
      · rcases l₁ with _ | ⟨x, t⟩
        · -- the winner is `acc` itself; everything after it is smaller
          simp only [List.nil_append] at ihsplit
          have hw : reduceWinner acc ps = acc :=
            (((List.cons.injEq _ _ _ _).mp ihsplit).1).symm
          have hps : ps = l₂ := ((List.cons.injEq _ _ _ _).mp ihsplit).2
          refine ⟨[], p :: ps, ?_, ?_⟩
          · simp [hw]
          · intro q hq
            rcases List.mem_cons.mp hq with rfl | hq'
            · rw [hw]; exact hgt
            · exact ihlast q (hps ▸ hq')
        · have hx : x = acc := ((List.cons.injEq _ _ _ _).mp ihsplit).1.symm
          have ht : ps = t ++ reduceWinner acc ps :: l₂ :=
            ((List.cons.injEq _ _ _ _).mp ihsplit).2
          refine ⟨acc :: p :: t, l₂, ?_, ihlast⟩
          rw [List.cons_append, List.cons_append, ← ht]
    · rw [if_neg hgt] at ihmem ihacc ihall ihsplit ihlast
      rw [hred, if_neg hgt]
      have hle : acc.score ≤ p.score := le_of_not_lt hgt
      refine ⟨?_, le_trans hle ihacc, ?_, ?_⟩
      · rcases ihmem with heq | hmem
        · exact Or.inr (by rw [heq]; exact List.mem_cons_self p ps)
        · exact Or.inr (List.mem_cons_of_mem p hmem)
      · intro q hq
        rcases List.mem_cons.mp hq with rfl | hq'
        · exact ihacc
        · exact ihall q hq'
      · exact ⟨acc :: l₁, l₂, by rw [List.cons_append, ← ihsplit], ihlast⟩

/-- C3 (amended): whenever the `submit_answer` handler declares a winner, the
winner is a potential winner (score at least 8 and not the pink-cow holder),
has the maximal score among potential winners, and — on ties for the maximal
score — is the **last** potential winner in player iteration order: every
potential winner listed after the chosen one scores strictly less. -/
theorem pickWinner_spec (players : List PlayerRec) (holder : Option String)
    (w : PlayerRec) (h : pickWinner players holder = some w) :
    w ∈ potentialWinners players holder ∧
    8 ≤ w.score ∧
    (∀ hid, holder = some hid → w.pid ≠ hid) ∧
    (∀ q ∈ potentialWinners players holder, q.score ≤ w.score) ∧
    ∃ l₁ l₂, potentialWinners players holder = l₁ ++ w :: l₂ ∧
      ∀ q ∈ l₂, q.score < w.score := by
  unfold pickWinner at h
  rcases hpw : potentialWinners players holder with _ | ⟨p, ps⟩
  · rw [hpw] at h; cases h
  rw [hpw] at h
  simp only [Option.some.injEq] at h
  obtain ⟨hmem, hacc, hall, l₁, l₂, hsplit, hlast⟩ := reduceWinner_spec ps p
  rw [h] at hmem hacc hall hsplit hlast
  have hwmem : w ∈ p :: ps := by
    rcases hmem with rfl | hm
    · exact List.mem_cons_self _ _
    · exact List.mem_cons_of_mem _ hm
  have hwpw : w ∈ potentialWinners players holder := by rw [hpw]; exact hwmem
  have hwf := List.mem_filter.mp hwpw
  have hscore : 8 ≤ w.score := by
    have := (List.mem_filter.mp hwf.1).2
    simpa using this
  refine ⟨hwmem, hscore, ?_, ?_, ?_⟩
  · intro hid hh
    have := hwf.2
    rw [hh] at this
    simpa using this
  · intro q hq
    rcases List.mem_cons.mp hq with rfl | hq'
    · exact hacc
    · exact hall q hq'
  · exact ⟨l₁, l₂, hsplit, hlast⟩

/-- Witness for C3's amended theorem: a lone eligible player with score 8 is
declared winner. -/
theorem pickWinner_spec_witness :
    (⟨"A", "alice", true, 8, true, "sA"⟩ : PlayerRec)
      ∈ potentialWinners [⟨"A", "alice", true, 8, true, "sA"⟩] none ∧
    8 ≤ (⟨"A", "alice", true, 8, true, "sA"⟩ : PlayerRec).score := by
  have h := pickWinner_spec [⟨"A", "alice", true, 8, true, "sA"⟩] none
    ⟨"A", "alice", true, 8, true, "sA"⟩ (by decide)
  exact ⟨h.1, h.2.1⟩

/-- C3 (counterexample): two potential winners tied at score 8 — the first
in iteration order is `alice`, but the handler's `reduce` returns `bob`, the
*last* tied player, so the claimed first-encountered tie-break is wrong. -/
theorem pickWinner_tie_returns_last :
    (potentialWinners
        [⟨"A", "alice", true, 8, true, "sA"⟩, ⟨"B", "bob", false, 8, true, "sB"⟩]
        none).head? = some ⟨"A", "alice", true, 8, true, "sA"⟩ ∧
    pickWinner
        [⟨"A", "alice", true, 8, true, "sA"⟩, ⟨"B", "bob", false, 8, true, "sB"⟩]
        none = some ⟨"B", "bob", false, 8, true, "sB"⟩ ∧
    (⟨"A", "alice", true, 8, true, "sA"⟩ : PlayerRec)
      ≠ ⟨"B", "bob", false, 8, true, "sB"⟩ ∧
    (⟨"A", "alice", true, 8, true, "sA"⟩ : PlayerRec).score
      = (⟨"B", "bob", false, 8, true, "sB"⟩ : PlayerRec).score := by
  decide

/-! ## Status transitions -/

theorem submitAnswer_status (st : RoomState) (sock text : String) :
    (submitAnswer st sock text).1.game.status = st.game.status ∨
    (st.game.status = GameStatus.inProgress ∧
     (submitAnswer st sock text).1.game.status = GameStatus.completed) := by
  simp only [submitAnswer]
  split
  · exact Or.inl rfl
  next hprog =>
    split
    · exact Or.inl rfl
    next player hfind =>
      split
      · exact Or.inl rfl
      · split
        · split
          · exact Or.inl rfl
          · split
            · exact Or.inr ⟨not_not.mp hprog, rfl⟩
            · exact Or.inl rfl
        · exact Or.inl rfl

theorem startGame_status (st : RoomState) (sock question : String) :
    (startGame st sock question).1.game.status = GameStatus.inProgress ∨
    (startGame st sock question).1 = st := by
  unfold startGame
  split
  · exact Or.inr rfl
  · exact Or.inl rfl

/-- The effect of each handler on `Game.status` alone, read off the source:
`start_game` writes `in-progress` whenever the requester is the host, with no
check of the current status; `submit_answer` writes `completed` on a closed
round with a winner (its guard only matches `in-progress` rooms); no other
handler writes `status`. -/
def statusStep (s : GameStatus) : GameOp → GameStatus
  | .start _ _ => GameStatus.inProgress
  | .submit _ _ => if s = GameStatus.inProgress then GameStatus.completed else s
  | _ => s

/-- C5 (counterexample): a room that already reached `completed` is sent
back to `in-progress` by a host `start_game` — the status order is violated
by the actual `start_game` handler, which never checks the current status. -/
theorem startGame_moves_status_backwards :
    (startGame
      ⟨⟨"R1", "h", GameStatus.completed, 3, "q", 0, none, ["q"]⟩,
       [⟨"A", "alice", true, 9, true, "h"⟩], []⟩ "h" "q2").1.game.status
      = GameStatus.inProgress ∧
    statusRank
      ((startGame
        ⟨⟨"R1", "h", GameStatus.completed, 3, "q", 0, none, ["q"]⟩,
         [⟨"A", "alice", true, 9, true, "h"⟩], []⟩ "h" "q2").1.game.status)
      < statusRank GameStatus.completed := by
  decide

/-- C5 (amended): the room status moves only forwards along
`waiting → in-progress → completed` under every operation **except**
`start_game`: `submit_answer` either preserves the status or completes an
in-progress room, all other handlers never write it, while `start_game`
(host-authorized) sets `in-progress` from any current status — including
`completed`, re-entering an earlier state. -/
theorem status_forward_except_start :
    (∀ st sock text,
      (submitAnswer st sock text).1.game.status = st.game.status ∨
      (st.game.status = GameStatus.inProgress ∧
       (submitAnswer st sock text).1.game.status = GameStatus.completed)) ∧
    (∀ st sock question,
      (startGame st sock question).1.game.status = GameStatus.inProgress ∨
      (startGame st sock question).1 = st) ∧
    (∀ s : GameStatus, ∀ op : GameOp,
      (∀ sock question, op ≠ GameOp.start sock question) →
      statusRank s ≤ statusRank (statusStep s op)) := by
  refine ⟨submitAnswer_status, startGame_status, ?_⟩
  intro s op hop
  cases op with
  | start sock question => exact absurd rfl (hop sock question)
  | submit sock text =>
    cases s <;> simp [statusStep, statusRank]
  | join pid sock username => exact le_refl _
  | reconnect sock username => exact le_refl _
  | next sock question => exact le_refl _
  | removePlayer targetSock => exact le_refl _
  | disconnect sock => exact le_refl _

/-- Witness for C5's amended theorem: a `next_round` never lowers the rank,
and a closing `submit_answer` that finds a winner takes `in-progress` to
`completed`. -/
theorem status_forward_except_start_witness :
    statusRank GameStatus.inProgress
      ≤ statusRank (statusStep GameStatus.inProgress (GameOp.next "h" "q")) :=
  status_forward_except_start.2.2 GameStatus.inProgress (GameOp.next "h" "q")
    (by intro sock question h; cases h)

theorem range'_filter_closeGuard (K : Nat) (hK : 1 ≤ K) :
    (List.range' 1 K).filter (fun v => closeGuard v K) = [K] := by
  obtain ⟨n, rfl⟩ : ∃ n, K = n + 1 := ⟨K - 1, by omega⟩
  rw [List.range'_concat]
  rw [List.filter_append]
  have h1 : (List.range' 1 n).filter (fun v => closeGuard v (n + 1)) = [] := by
    rw [List.filter_eq_nil_iff]
    intro v hv
    have := List.mem_range'_1.mp hv
    simp only [closeGuard]
    simp only [decide_eq_true_eq]
    omega
  have h2 : ([1 + 1 * n] : List Nat).filter (fun v => closeGuard v (n + 1)) = [1 + 1 * n] := by
    simp [closeGuard]
    omega
  rw [h1, h2]
  simp only [List.nil_append]
  congr 1
  omega

/-- C2: when `K` connected players race `K` `submit_answer` calls on a fresh
round, the atomic `$inc` hands the submissions the post-increment values
`1, …, K` in some interleaving order `vs`; each submission closes the round
iff `closeGuard` accepts its value against the connected count `K`, so
exactly one submission (the one that observed `K`) runs the closing logic
and broadcasts `round_completed`; and the counter — after its `K` atomic
increments followed by the single closing reset — ends at `0`.  Duplicate
closing triggers for the round would show up as a filter count above one. -/
theorem concurrent_submits_close_once (K : Nat) (hK : 1 ≤ K) (vs : List Nat)
    (hperm : vs.Perm (List.range' 1 K)) :
    (vs.filter (fun v => closeGuard v K)).length = 1 ∧
    (List.replicate K CounterEvent.inc ++ [CounterEvent.reset]).foldl
      applyCounterEvent 0 = 0 := by
  constructor
  · have hp := hperm.filter (fun v => closeGuard v K)
    rw [hp.length_eq, range'_filter_closeGuard K hK]
    rfl
  · rw [List.foldl_append]
    rfl

/-- Witness for C2 at `K = 2` with the two submissions completing in reverse
order. -/
theorem concurrent_submits_close_once_witness :
    ((([2, 1] : List Nat).filter (fun v => closeGuard v 2)).length = 1 ∧
     (List.replicate 2 CounterEvent.inc ++ [CounterEvent.reset]).foldl
       applyCounterEvent 0 = 0) :=
  concurrent_submits_close_once 2 (by decide) [2, 1] (by decide)

/-- C4: a duplicate submission (player `A` answering round 1 twice) hits the
`(roundId, playerId)` unique index *after* the handler has already performed
the atomic `$inc`: the call fails, yet `playersAnswered` is left incremented
while no new `Answer` is persisted — the two-step contract is not atomic. -/
theorem submitAnswer_duplicate_partial_update :
    (submitAnswer
      ⟨⟨"R1", "sA", GameStatus.inProgress, 1, "q", 1, none, ["q"]⟩,
       [⟨"A", "alice", true, 0, true, "sA"⟩, ⟨"B", "bob", false, 0, true, "sB"⟩],
       [(1, ⟨"A", "alice", "dog", "dog"⟩)]⟩ "sA" "dog").1.game.playersAnswered
      = 1 + 1 ∧
    (submitAnswer
      ⟨⟨"R1", "sA", GameStatus.inProgress, 1, "q", 1, none, ["q"]⟩,
       [⟨"A", "alice", true, 0, true, "sA"⟩, ⟨"B", "bob", false, 0, true, "sB"⟩],
       [(1, ⟨"A", "alice", "dog", "dog"⟩)]⟩ "sA" "dog").1.answers
      = [(1, ⟨"A", "alice", "dog", "dog"⟩)] ∧
    (submitAnswer
      ⟨⟨"R1", "sA", GameStatus.inProgress, 1, "q", 1, none, ["q"]⟩,
       [⟨"A", "alice", true, 0, true, "sA"⟩, ⟨"B", "bob", false, 0, true, "sB"⟩],
       [(1, ⟨"A", "alice", "dog", "dog"⟩)]⟩ "sA" "dog").2.errorMsg
      = some "Failed to submit answer" := by
  decide

/-- C1 (counterexample): room with `alice`, `bob` connected and `carol`
disconnected; `alice` answered round 1 and a failed duplicate from her has
already leaked one increment, so `playersAnswered = 2`.  `bob`'s (first,
valid) submission observes the post-increment value `3` against `2`
connected players: the closing logic runs although the two numbers are not
equal — the handler tests `>=`, not `==`. -/
theorem submitAnswer_close_without_equality :
    (submitAnswer
      ⟨⟨"R1", "sA", GameStatus.inProgress, 1, "q", 2, none, ["q"]⟩,
       [⟨"A", "alice", true, 0, true, "sA"⟩, ⟨"B", "bob", false, 0, true, "sB"⟩,
        ⟨"C", "carol", false, 0, false, "sC"⟩],
       [(1, ⟨"A", "alice", "dog", "dog"⟩)]⟩ "sB" "cat").2.closeRan = true ∧
    (2 : Nat) + 1 ≠ connectedCount
      [⟨"A", "alice", true, 0, true, "sA"⟩, ⟨"B", "bob", false, 0, true, "sB"⟩,
       ⟨"C", "carol", false, 0, false, "sC"⟩] := by
  decide

/-- C1 (amended): for a `submit_answer` against an in-progress room, the
round-closing logic runs **iff** the socket maps to a player, the player has
not already answered the current round (the unique-index insert succeeds),
and the post-increment counter value is **greater than or equal to** the
connected-player count read after the insert. -/
theorem submitAnswer_close_iff (st : RoomState) (sock text : String)
    (hprog : st.game.status = GameStatus.inProgress) :
    (submitAnswer st sock text).2.closeRan = true ↔
      ∃ player, st.players.find? (fun p => p.socketId = sock) = some player ∧
        st.answers.filter
          (fun ra => ra.1 = st.game.currentRound ∧ ra.2.playerId = player.pid) = [] ∧
        closeGuard (st.game.playersAnswered + 1) (connectedCount st.players) = true := by
  simp only [submitAnswer]
  rw [if_neg (by simp [hprog])]
  cases hfind : List.find? (fun p => p.socketId = sock) st.players with
  | none =>
    simp only [hfind]
    simp
  | some player =>
    simp only [hfind]
    by_cases hdup : st.answers.filter
        (fun ra => ra.1 = st.game.currentRound ∧ ra.2.playerId = player.pid) = []
    · rw [if_neg (by simpa using hdup)]
      by_cases hguard : closeGuard (st.game.playersAnswered + 1)
          (connectedCount st.players) = true
      · rw [if_pos hguard]
        cases hres : analyzeRoundAnswers (roundAnswers
            ⟨⟨st.game.roomCode, st.game.hostId, st.game.status, st.game.currentRound,
              st.game.currentQuestion, st.game.playersAnswered + 1,
              st.game.pinkCowHolder, st.game.usedQuestions⟩, st.players,
             st.answers ++ [(st.game.currentRound,
               ⟨player.pid, player.username, text, normalizeAnswer text⟩)]⟩
            st.game.currentRound) with
        | none =>
          simp only [hres]
          simp only [true_iff]
          exact ⟨player, rfl, hdup, hguard⟩
        | some results =>
          simp only [hres]
          cases hw : pickWinner
              (st.players.map (fun p => if p.pid ∈ results.scoringPlayers
                then { p with score := p.score + 1 } else p))
              (determinePinkCowHolder st.game.pinkCowHolder results.uniqueAnswerPlayer) with
          | none =>
            simp only [hw]
            simp only [true_iff]
            exact ⟨player, rfl, hdup, hguard⟩
          | some w =>
            simp only [hw]
            simp only [true_iff]
            exact ⟨player, rfl, hdup, hguard⟩
      · rw [if_neg hguard]
        simp only [Bool.false_eq_true, false_iff]
        rintro ⟨player', hp', hdup', hguard'⟩
        cases hp'
        exact hguard hguard'
    · rw [if_pos (by simpa using hdup)]
      simp only [Bool.false_eq_true, false_iff]
      rintro ⟨player', hp', hdup', hguard'⟩
      cases hp'
      exact hdup hdup'

/-- Witness for C1's amended theorem: a single-player room in round 1 — the
lone submission observes `1 ≥ 1` and closes the round. -/
theorem submitAnswer_close_iff_witness :
    (submitAnswer
      ⟨⟨"R1", "sA", GameStatus.inProgress, 1, "q", 0, none, ["q"]⟩,
       [⟨"A", "alice", true, 0, true, "sA"⟩], []⟩ "sA" "dog").2.closeRan = true :=
  (submitAnswer_close_iff
    ⟨⟨"R1", "sA", GameStatus.inProgress, 1, "q", 0, none, ["q"]⟩,
     [⟨"A", "alice", true, 0, true, "sA"⟩], []⟩ "sA" "dog" rfl).mpr
    ⟨⟨"A", "alice", true, 0, true, "sA"⟩, by decide, by decide, by decide⟩

/-! ## Score evolution -/

theorem updateFirstPlayer_correspond (pred : PlayerRec → Bool) (f : PlayerRec → PlayerRec)
    (hf : ∀ p, (f p).pid = p.pid ∧ (f p).score = p.score) :
    ∀ ps : List PlayerRec,
      (∀ p ∈ ps, ∃ q ∈ updateFirstPlayer pred f ps, q.pid = p.pid ∧ q.score = p.score) ∧
      (∀ q ∈ updateFirstPlayer pred f ps, ∃ p ∈ ps, q.pid = p.pid ∧ q.score = p.score) := by
  intro ps
  induction ps with
  | nil => exact ⟨by simp, by simp [updateFirstPlayer]⟩
  | cons p ps ih =>
    by_cases hp : pred p
    · constructor
      · intro x hx
        rcases List.mem_cons.mp hx with rfl | hx'
        · refine ⟨f x, ?_, (hf x).1, (hf x).2⟩
          simp [updateFirstPlayer, hp]
        · refine ⟨x, ?_, rfl, rfl⟩
          simp [updateFirstPlayer, hp, hx']
      · intro q hq
        rw [updateFirstPlayer, if_pos hp] at hq
        rcases List.mem_cons.mp hq with rfl | hq'
        · exact ⟨p, List.mem_cons_self _ _, (hf p).1, (hf p).2⟩
        · exact ⟨q, List.mem_cons_of_mem _ hq', rfl, rfl⟩
    · constructor
      · intro x hx
        rcases List.mem_cons.mp hx with rfl | hx'
        · refine ⟨x, ?_, rfl, rfl⟩
          simp [updateFirstPlayer, hp]
        · obtain ⟨q, hq, hqp, hqs⟩ := (ih).1 x hx'
          refine ⟨q, ?_, hqp, hqs⟩
          rw [updateFirstPlayer, if_neg hp]
          exact List.mem_cons_of_mem _ hq
      · intro q hq
        rw [updateFirstPlayer, if_neg hp] at hq
        rcases List.mem_cons.mp hq with rfl | hq'
        · exact ⟨q, List.mem_cons_self _ _, rfl, rfl⟩
        · obtain ⟨x, hx, hxp, hxs⟩ := (ih).2 q hq'
          exact ⟨x, List.mem_cons_of_mem _ hx, hxp, hxs⟩

theorem submitAnswer_players (st : RoomState) (sock text : String) :
    (submitAnswer st sock text).1.players = st.players ∨
    ∃ scoring : List String, (submitAnswer st sock text).1.players =
      st.players.map (fun p =>
        if p.pid ∈ scoring then { p with score := p.score + 1 } else p) := by
  simp only [submitAnswer]
  split
  · exact Or.inl rfl
  · split
    · exact Or.inl rfl
    · split
      · exact Or.inl rfl
      · split
        · split
          · exact Or.inl rfl
          next results heq =>
            split
            · exact Or.inr ⟨results.scoringPlayers, rfl⟩
            · exact Or.inr ⟨results.scoringPlayers, rfl⟩
        · exact Or.inl rfl

theorem score_step_id (st : RoomState) :
    (∀ q ∈ st.players,
      (∃ p ∈ st.players, q.pid = p.pid ∧ (q.score = p.score ∨ q.score = p.score + 1)) ∨
      q.score = 0) ∧
    (∀ p ∈ st.players, ∃ q ∈ st.players, q.pid = p.pid ∧ p.score ≤ q.score) :=
  ⟨fun q hq => Or.inl ⟨q, hq, rfl, Or.inl rfl⟩, fun p hp => ⟨p, hp, rfl, le_refl _⟩⟩

theorem score_step_updateFirst (st : RoomState) (pred : PlayerRec → Bool)
    (f : PlayerRec → PlayerRec) (hf : ∀ p, (f p).pid = p.pid ∧ (f p).score = p.score) :
    (∀ q ∈ updateFirstPlayer pred f st.players,
      (∃ p ∈ st.players, q.pid = p.pid ∧ (q.score = p.score ∨ q.score = p.score + 1)) ∨
      q.score = 0) ∧
    (∀ p ∈ st.players, ∃ q ∈ updateFirstPlayer pred f st.players,
      q.pid = p.pid ∧ p.score ≤ q.score) := by
  have hcor := updateFirstPlayer_correspond pred f hf st.players
  constructor
  · intro q hq
    obtain ⟨p, hp, hpq, hsq⟩ := hcor.2 q hq
    exact Or.inl ⟨p, hp, hpq, Or.inl hsq⟩
  · intro p hp
    obtain ⟨q, hq, hqp, hqs⟩ := hcor.1 p hp
    exact ⟨q, hq, hqp, le_of_eq hqs.symm⟩

/-- Score-relevant effect of every room operation: each surviving player
document keeps its id with the same score or a single `+1`, and every player
document after the step either descends from one before it or is a freshly
created player with score `0`. -/
theorem applyOp_score_step (st : RoomState) (op : GameOp) :
    (∀ q ∈ (applyOp st op).players,
      (∃ p ∈ st.players, q.pid = p.pid ∧ (q.score = p.score ∨ q.score = p.score + 1)) ∨
      q.score = 0) ∧
    (∀ p ∈ st.players, ∃ q ∈ (applyOp st op).players, q.pid = p.pid ∧ p.score ≤ q.score) := by
  cases op with
  | submit sock text =>
    rw [show (applyOp st (GameOp.submit sock text)).players
        = (submitAnswer st sock text).1.players from rfl]
    rcases submitAnswer_players st sock text with heq | ⟨scoring, heq⟩
    · rw [heq]
      exact score_step_id st
    · rw [heq]
      constructor
      · intro q hq
        obtain ⟨p, hp, hpq⟩ := List.mem_map.mp hq
        refine Or.inl ⟨p, hp, ?_⟩
        rw [← hpq]
        by_cases hs : p.pid ∈ scoring
        · rw [if_pos hs]
          exact ⟨rfl, Or.inr rfl⟩
        · rw [if_neg hs]
          exact ⟨rfl, Or.inl rfl⟩
      · intro p hp
        refine ⟨if p.pid ∈ scoring then { p with score := p.score + 1 } else p,
          List.mem_map_of_mem _ hp, ?_⟩
        by_cases hs : p.pid ∈ scoring
        · rw [if_pos hs]
          refine ⟨rfl, ?_⟩
          show p.score ≤ p.score + 1
          omega
        · rw [if_neg hs]
          exact ⟨rfl, le_refl _⟩
  | start sock question =>
    rw [show (applyOp st (GameOp.start sock question)).players
        = (startGame st sock question).1.players from rfl]
    unfold startGame
    split
    · exact score_step_id st
    · exact score_step_id st
  | join pid sock username =>
    cases hfind : st.players.find? (fun p => p.username = username) with
    | some p0 =>
      simp only [applyOp]
      rw [hfind]
      exact score_step_updateFirst st _ _ (fun p => ⟨rfl, rfl⟩)
    | none =>
      simp only [applyOp]
      rw [hfind]
      show (∀ q ∈ (if st.game.status ≠ GameStatus.waiting then st
          else { st with players :=
            st.players ++ [⟨pid, username, false, 0, true, sock⟩] }).players, _) ∧ _
      by_cases hstatus : st.game.status ≠ GameStatus.waiting
      · rw [if_pos hstatus]
        exact score_step_id st
      · rw [if_neg hstatus]
        constructor
        · intro q hq
          rcases List.mem_append.mp hq with hq' | hq'
          · exact Or.inl ⟨q, hq', rfl, Or.inl rfl⟩
          · rw [List.mem_singleton.mp hq']
            exact Or.inr rfl
        · intro p hp
          exact ⟨p, List.mem_append_left _ hp, rfl, le_refl _⟩
  | reconnect sock username =>
    simp only [applyOp]
    split
    · exact score_step_updateFirst st _ _ (fun p => ⟨rfl, rfl⟩)
    · exact score_step_id st
  | next sock question =>
    simp only [applyOp]
    split
    · exact score_step_id st
    · exact score_step_id st
  | removePlayer targetSock =>
    simp only [applyOp]
    exact score_step_updateFirst st _ _ (fun p => ⟨rfl, rfl⟩)
  | disconnect sock =>
    simp only [applyOp]
    exact score_step_updateFirst st _ _ (fun p => ⟨rfl, rfl⟩)

/-- C10: player scores start at 0 (`score` schema default, applied to the
host on `create_game` and to guests on `join_game`), the only score write any
handler performs is the `+1` for each scoring player when a round closes,
and consequently along any operation sequence every player's score stays
non-negative and never decreases. -/
theorem scores_nonneg_monotone :
    (∀ roomCode hostSock hostPid hostName : String,
      ∀ q ∈ (initialRoom roomCode hostSock hostPid hostName).players, q.score = 0) ∧
    (∀ st op, ∀ q ∈ (applyOp st op).players,
      (∃ p ∈ st.players, q.pid = p.pid ∧ (q.score = p.score ∨ q.score = p.score + 1)) ∨
      q.score = 0) ∧
    (∀ st ops, (∀ p ∈ st.players, 0 ≤ p.score) →
      ∀ q ∈ (applyOps st ops).players, 0 ≤ q.score) ∧
    (∀ st ops, ∀ p ∈ st.players,
      ∃ q ∈ (applyOps st ops).players, q.pid = p.pid ∧ p.score ≤ q.score) := by
  refine ⟨?_, ?_, ?_, ?_⟩
  · intro roomCode hostSock hostPid hostName q hq
    simp only [initialRoom, List.mem_singleton] at hq
    rw [hq]
  · intro st op q hq
    exact (applyOp_score_step st op).1 q hq
  · intro st ops
    induction ops generalizing st with
    | nil => intro h q hq; exact h q hq
    | cons op ops ih =>
      intro h q hq
      refine ih (applyOp st op) ?_ q hq
      intro p hp
      rcases (applyOp_score_step st op).1 p hp with ⟨p0, hp0, _, hsc⟩ | hz
      · have := h p0 hp0
        rcases hsc with heq | heq
        · omega
        · omega
      · omega
  · intro st ops
    induction ops generalizing st with
    | nil => intro p hp; exact ⟨p, hp, rfl, le_refl _⟩
    | cons op ops ih =>
      intro p hp
      obtain ⟨q, hq, hqp, hqs⟩ := (applyOp_score_step st op).2 p hp
      obtain ⟨q', hq', hq'p, hq's⟩ := ih (applyOp st op) q hq
      exact ⟨q', hq', by rw [hq'p, hqp], le_trans hqs hq's⟩

/-- Witness for C10: the host of a fresh room keeps a non-negative score
after a (failed, `waiting`-state) submit followed by a disconnect. -/
theorem scores_nonneg_monotone_witness :
    (0 : Int) ≤ (PlayerRec.mk "A" "alice" true 0 true "h").score :=
  scores_nonneg_monotone.2.2.1 (initialRoom "R1" "h" "A" "alice")
    [GameOp.submit "h" "dog", GameOp.disconnect "h"]
    (by decide) (PlayerRec.mk "A" "alice" true 0 false "h") (by decide) |>.trans
    (le_refl _)

/-- Witness for C7 at the spec's scenario (`dog`, `dog`, `cat`): the
majority is `dog`. -/
theorem analyzeRoundAnswers_majority_witness :
    ∃ r, analyzeRoundAnswers
        [⟨"A", "a", "dog", "dog"⟩, ⟨"B", "b", "Dogs", "dog"⟩, ⟨"C", "c", "cat", "cat"⟩]
      = some r ∧ r.majorityAnswer = some "dog" := by
  obtain ⟨r, hr, h1, h2, h3⟩ := analyzeRoundAnswers_majority
    [⟨"A", "a", "dog", "dog"⟩, ⟨"B", "b", "Dogs", "dog"⟩, ⟨"C", "c", "cat", "cat"⟩]
    (by decide)
  exact ⟨r, hr, h2 "dog" (by decide) (by decide)⟩

/-- Witness for C8 at the spec's scenario (`dog`, `dog`, `cat`): `cat` is
the single count-1 text and `C` the unique answerer. -/
theorem analyzeRoundAnswers_unique_witness :
    ∃ r, analyzeRoundAnswers
        [⟨"A", "a", "dog", "dog"⟩, ⟨"B", "b", "Dogs", "dog"⟩, ⟨"C", "c", "cat", "cat"⟩]
      = some r ∧
      (countOf [⟨"A", "a", "dog", "dog"⟩, ⟨"B", "b", "Dogs", "dog"⟩,
          ⟨"C", "c", "cat", "cat"⟩] "cat" = 1 ∧
       ∃ a ∈ ([⟨"A", "a", "dog", "dog"⟩, ⟨"B", "b", "Dogs", "dog"⟩,
          ⟨"C", "c", "cat", "cat"⟩] : List AnswerRec),
         a.normalizedAnswer = "cat" ∧
         r.uniqueAnswerPlayer = some a.playerId ∧
         ∀ b ∈ ([⟨"A", "a", "dog", "dog"⟩, ⟨"B", "b", "Dogs", "dog"⟩,
            ⟨"C", "c", "cat", "cat"⟩] : List AnswerRec),
           b.normalizedAnswer = "cat" → b.playerId = a.playerId) := by
  obtain ⟨r, hr, h1, h2⟩ := analyzeRoundAnswers_unique
    [⟨"A", "a", "dog", "dog"⟩, ⟨"B", "b", "Dogs", "dog"⟩, ⟨"C", "c", "cat", "cat"⟩]
    (by decide)
  exact ⟨r, hr, h1 "cat" (by decide)⟩

/-! ## Idempotence analysis of the normalizer

The second application of `normalizeAnswer` can only change its input
through two of the pipeline's stages: the single-trailing-`s` strip (when
the first pass's output still ends in `s`, e.g. `"ss" → "s" → ""`) and the
whitespace collapse (article/punctuation removal runs *after* the collapse,
so it can leave two adjacent spaces behind, e.g. `"x . y" → "x  y"`).  All
other stages are the identity on every first-pass output, which the
invariant lemmas below establish. -/

/-- Adjacent double space, the one whitespace artifact a first-pass output
can carry. -/
def hasAdjacentSpaces : List Char → Bool
  | [] => false
  | [_] => false
  | c₁ :: c₂ :: rest => (c₁ = ' ' ∧ c₂ = ' ') ∨ hasAdjacentSpaces (c₂ :: rest)

/-- `normalizeAnswer x` still ends in the letter the plural-strip removes. -/
def endsWithS (s : String) : Bool :=
  s.data.getLast? = some 's' ∨ s.data.getLast? = some 'S'

/-- `normalizeAnswer x` contains two adjacent spaces. -/
def hasDoubleSpace (s : String) : Bool :=
  hasAdjacentSpaces s.data

/-- Worker predicate: no maximal word run of the input, continued from the
already-read run `cur`, is an article. -/
def noArticleRunsAux (cur : List Char) : List Char → Bool
  | [] => !(isArticle cur)
  | c :: cs =>
    if isWordChar c then noArticleRunsAux (cur ++ [c]) cs
    else !(isArticle cur) && noArticleRunsAux [] cs

theorem toLower_toLower (c : Char) : c.toLower.toLower = c.toLower := by
  unfold Char.toLower
  by_cases h : c.toNat ≥ 65 ∧ c.toNat ≤ 90
  · rw [if_pos h]
    have hv : (c.toNat + 32).isValidChar := by
      left
      simp [Nat.lt_iff_add_one_le]
      omega
    have heq : (Char.ofNat (c.toNat + 32)).toNat = c.toNat + 32 := by
      unfold Char.ofNat
      rw [dif_pos hv]
      simp [Char.ofNatAux, Char.toNat, UInt32.toNat]
    simp only [heq]
    rw [if_neg]
    omega
  · rw [if_neg h, if_neg h]

theorem ws_not_word {c : Char} (h : isWsChar c = true) : isWordChar c = false := by
  have := of_decide_eq_true h
  rcases this with h' | h' | h' | h' | h' | h' <;> rw [h'] <;> decide

theorem mem_of_getLast? {α : Type} : ∀ {l : List α} {c : α}, l.getLast? = some c → c ∈ l := by
  intro l
  induction l with
  | nil => intro c h; cases h
  | cons a l ih =>
    intro c h
    cases l with
    | nil =>
      simp only [List.getLast?_singleton, Option.some.injEq] at h
      simp [h]
    | cons b t =>
      rw [List.getLast?_cons_cons] at h
      exact List.mem_cons_of_mem a (ih h)

/-! ### Character-subset facts for each pipeline stage -/

theorem mem_dropTrailingWs : ∀ {l : List Char} {c : Char},
    c ∈ dropTrailingWs l → c ∈ l := by
  intro l
  induction l with
  | nil => intro c h; cases h
  | cons a l ih =>
    intro c h
    rw [dropTrailingWs] at h
    split at h
    · cases h
    · rcases List.mem_cons.mp h with rfl | h'
      · exact List.mem_cons_self _ _
      · exact List.mem_cons_of_mem a (ih h')

theorem mem_trimChars {l : List Char} {c : Char} (h : c ∈ trimChars l) : c ∈ l :=
  ((List.dropWhile_sublist isWsChar).mem (mem_dropTrailingWs h))

theorem mem_collapseWs : ∀ (l : List Char) (c : Char),
    c ∈ collapseWs l → c = ' ' ∨ c ∈ l
  | [], c, h => by cases h
  | [x], c, h => by
    rw [collapseWs] at h
    split at h
    · simp only [List.mem_singleton] at h
      exact Or.inl h
    · simp only [List.mem_singleton] at h
      exact Or.inr (by simp [h])
  | c₁ :: c₂ :: rest, c, h => by
    rw [collapseWs] at h
    split at h
    · rcases mem_collapseWs (c₂ :: rest) c h with h' | h'
      · exact Or.inl h'
      · exact Or.inr (List.mem_cons_of_mem c₁ h')
    · rcases List.mem_cons.mp h with rfl | h'
      · split
        · exact Or.inl rfl
        · exact Or.inr (List.mem_cons_self _ _)
      · rcases mem_collapseWs (c₂ :: rest) c h' with h'' | h''
        · exact Or.inl h''
        · exact Or.inr (List.mem_cons_of_mem c₁ h'')

theorem ws_mem_collapseWs : ∀ (l : List Char) (c : Char),
    c ∈ collapseWs l → isWsChar c = true → c = ' '
  | [], c, h, _ => by cases h
  | [x], c, h, hws => by
    rw [collapseWs] at h
    split at h
    · simpa using h
    next hx =>
      simp only [List.mem_singleton] at h
      exact absurd (h ▸ hws) (by simpa using hx)
  | c₁ :: c₂ :: rest, c, h, hws => by
    rw [collapseWs] at h
    split at h
    · exact ws_mem_collapseWs (c₂ :: rest) c h hws
    · rcases List.mem_cons.mp h with rfl | h'
      · by_cases hc₁ : isWsChar c₁ = true
        · rw [if_pos hc₁]
        · rw [if_neg hc₁] at hws
          exact absurd hws hc₁
      · exact ws_mem_collapseWs (c₂ :: rest) c h' hws

theorem mem_stripPunct {l : List Char} {c : Char} (h : c ∈ stripPunct l) : c ∈ l :=
  List.mem_of_mem_filter h

theorem notPunct_stripPunct {l : List Char} {c : Char} (h : c ∈ stripPunct l) :
    c ∉ punctChars := by
  have := List.of_mem_filter h
  simpa using this

theorem mem_stripTrailingS {l : List Char} {c : Char} (h : c ∈ stripTrailingS l) :
    c ∈ l := by
  unfold stripTrailingS at h
  split at h
  · split at h
    · exact (List.dropLast_sublist l).mem h
    · exact h
  · exact h

theorem mem_emitWord {w : List Char} {c : Char} (h : c ∈ emitWord w) : c ∈ w := by
  unfold emitWord at h
  split at h
  · cases h
  · exact h

theorem mem_remArticlesAux : ∀ (l cur : List Char) (c : Char),
    c ∈ remArticlesAux cur l → c ∈ cur ∨ c ∈ l
  | [], cur, c, h => Or.inl (mem_emitWord h)
  | x :: xs, cur, c, h => by
    rw [remArticlesAux] at h
    split at h
    · rcases mem_remArticlesAux xs (cur ++ [x]) c h with h' | h'
      · rcases List.mem_append.mp h' with h'' | h''
        · exact Or.inl h''
        · exact Or.inr (by simp at h''; simp [h''])
      · exact Or.inr (List.mem_cons_of_mem x h')
    · rcases List.mem_append.mp h with h' | h'
      · exact Or.inl (mem_emitWord h')
      · rcases List.mem_cons.mp h' with rfl | h''
        · exact Or.inr (List.mem_cons_self _ _)
        · rcases mem_remArticlesAux xs [] c h'' with h''' | h'''
          · cases h'''
          · exact Or.inr (List.mem_cons_of_mem x h''')

theorem mem_removeArticles {l : List Char} {c : Char} (h : c ∈ removeArticles l) :
    c ∈ l := by
  rcases mem_remArticlesAux l [] c h with h' | h'
  · cases h'
  · exact h'

/-! ### End-of-string facts for `trimChars` -/

theorem head_dropWhile_not_ws : ∀ {l : List Char} {c : Char} {t : List Char},
    l.dropWhile isWsChar = c :: t → isWsChar c = false := by
  intro l
  induction l with
  | nil => intro c t h; cases h
  | cons a l ih =>
    intro c t h
    rw [List.dropWhile_cons] at h
    split at h
    · exact ih h
    next ha =>
      cases h
      simpa using ha

theorem head_dropTrailingWs : ∀ {l : List Char} {c : Char} {t : List Char},
    dropTrailingWs l = c :: t → ∃ t', l = c :: t' := by
  intro l
  induction l with
  | nil => intro c t h; cases h
  | cons a l _ =>
    intro c t h
    rw [dropTrailingWs] at h
    split at h
    · cases h
    · cases h
      exact ⟨l, rfl⟩

theorem getLast_dropTrailingWs : ∀ {l : List Char} {c : Char},
    (dropTrailingWs l).getLast? = some c → isWsChar c = false := by
  intro l
  induction l with
  | nil => intro c h; cases h
  | cons a l ih =>
    intro c h
    rw [dropTrailingWs] at h
    split at h
    · cases h
    next hcond =>
      rcases hr : dropTrailingWs l with _ | ⟨b, t⟩
      · rw [hr] at h
        simp only [List.getLast?_singleton, Option.some.injEq] at h
        subst h
        by_cases hws : isWsChar a = true
        · exact absurd ⟨hr, hws⟩ hcond
        · simpa using hws
      · rw [hr] at h
        rw [List.getLast?_cons_cons] at h
        exact ih (hr ▸ h)

theorem trimChars_head_not_ws {l : List Char} {c : Char} {t : List Char}
    (h : trimChars l = c :: t) : isWsChar c = false := by
  unfold trimChars at h
  obtain ⟨t', ht'⟩ := head_dropTrailingWs h
  exact head_dropWhile_not_ws ht'

theorem trimChars_getLast_not_ws {l : List Char} {c : Char}
    (h : (trimChars l).getLast? = some c) : isWsChar c = false :=
  getLast_dropTrailingWs h

/-! ### Identity of each stage on tame inputs -/

theorem map_toLower_eq_self : ∀ {l : List Char},
    (∀ c ∈ l, c.toLower = c) → l.map Char.toLower = l := by
  intro l
  induction l with
  | nil => intro _; rfl
  | cons a l ih =>
    intro h
    rw [List.map_cons, h a (List.mem_cons_self a l), ih (fun c hc => h c (List.mem_cons_of_mem a hc))]

theorem dropWhile_ws_eq_self {l : List Char}
    (h : ∀ c t, l = c :: t → isWsChar c = false) : l.dropWhile isWsChar = l := by
  cases l with
  | nil => rfl
  | cons a t =>
    rw [List.dropWhile_cons, if_neg]
    rw [h a t rfl]
    simp

theorem dropTrailingWs_eq_self : ∀ {l : List Char},
    (∀ c, l.getLast? = some c → isWsChar c = false) → dropTrailingWs l = l := by
  intro l
  induction l with
  | nil => intro _; rfl
  | cons a l ih =>
    intro h
    rw [dropTrailingWs]
    cases l with
    | nil =>
      rw [if_neg]
      · rfl
      · rintro ⟨-, hws⟩
        have := h a (by simp)
        rw [this] at hws
        cases hws
    | cons b t =>
      have hrec : dropTrailingWs (b :: t) = b :: t :=
        ih (fun c hc => h c (by rw [List.getLast?_cons_cons]; exact hc))
      rw [hrec, if_neg]
      rintro ⟨heq, -⟩
      cases heq

theorem trimChars_eq_self {l : List Char}
    (hh : ∀ c t, l = c :: t → isWsChar c = false)
    (hl : ∀ c, l.getLast? = some c → isWsChar c = false) : trimChars l = l := by
  unfold trimChars
  rw [dropWhile_ws_eq_self hh]
  exact dropTrailingWs_eq_self hl

theorem collapseWs_eq_self : ∀ {l : List Char},
    (∀ c ∈ l, isWsChar c = true → c = ' ') → hasAdjacentSpaces l = false →
    collapseWs l = l
  | [], _, _ => rfl
  | [x], hws, _ => by
    rw [collapseWs]
    split
    next hx => rw [hws x (by simp) hx]
    · rfl
  | c₁ :: c₂ :: rest, hws, hadj => by
    rw [collapseWs]
    rw [hasAdjacentSpaces, decide_eq_false_iff_not, not_or] at hadj
    obtain ⟨hadj1, hadj2⟩ := hadj
    have hadj' : hasAdjacentSpaces (c₂ :: rest) = false := by
      simpa using hadj2
    have hrec : collapseWs (c₂ :: rest) = c₂ :: rest :=
      collapseWs_eq_self (fun c hc => hws c (List.mem_cons_of_mem c₁ hc)) hadj'
    rw [if_neg, hrec]
    · split
      next hc₁ => rw [hws c₁ (by simp) hc₁]
      · rfl
    · rintro ⟨h₁, h₂⟩
      exact hadj1 ⟨hws c₁ (by simp) h₁, hws c₂ (by simp) h₂⟩

theorem stripPunct_eq_self {l : List Char} (h : ∀ c ∈ l, c ∉ punctChars) :
    stripPunct l = l := by
  unfold stripPunct
  rw [List.filter_eq_self]
  intro a ha
  simpa using h a ha

theorem stripTrailingS_eq_self {l : List Char}
    (hs : l.getLast? ≠ some 's') (hS : l.getLast? ≠ some 'S') :
    stripTrailingS l = l := by
  unfold stripTrailingS
  split
  next c hc =>
    rw [if_neg]
    rintro (rfl | rfl)
    · exact hs hc
    · exact hS hc
  · rfl

/-! ### The article stage: identity and self-stability -/

theorem remArticlesAux_eq_of_noRuns : ∀ (l cur : List Char),
    noArticleRunsAux cur l = true → remArticlesAux cur l = cur ++ l
  | [], cur, h => by
    rw [noArticleRunsAux] at h
    rw [remArticlesAux, emitWord, if_neg (by simpa using h)]
    simp
  | c :: cs, cur, h => by
    rw [noArticleRunsAux] at h
    rw [remArticlesAux]
    split
    next hc =>
      rw [if_pos hc] at h
      rw [remArticlesAux_eq_of_noRuns cs (cur ++ [c]) h]
      simp
    next hc =>
      rw [if_neg hc, Bool.and_eq_true] at h
      rw [emitWord, if_neg (by simpa using h.1)]
      rw [remArticlesAux_eq_of_noRuns cs [] h.2]
      simp

theorem removeArticles_eq_self {l : List Char} (h : noArticleRunsAux [] l = true) :
    removeArticles l = l := by
  unfold removeArticles
  rw [remArticlesAux_eq_of_noRuns l [] h]
  rfl

theorem noArticleRunsAux_word : ∀ (w acc : List Char),
    (∀ c ∈ w, isWordChar c = true) →
    noArticleRunsAux acc w = !(isArticle (acc ++ w))
  | [], acc, _ => by rw [noArticleRunsAux]; simp
  | c :: cs, acc, hw => by
    rw [noArticleRunsAux, if_pos (hw c (List.mem_cons_self c cs))]
    rw [noArticleRunsAux_word cs (acc ++ [c])
      (fun x hx => hw x (List.mem_cons_of_mem c hx))]
    simp

theorem noArticleRunsAux_word_break : ∀ (w acc r : List Char) (c : Char),
    (∀ x ∈ w, isWordChar x = true) → isWordChar c = false →
    noArticleRunsAux acc (w ++ c :: r)
      = (!(isArticle (acc ++ w)) && noArticleRunsAux [] r)
  | [], acc, r, c, _, hc => by
    rw [List.nil_append, noArticleRunsAux, if_neg (by simp [hc])]
    simp
  | x :: xs, acc, r, c, hw, hc => by
    rw [List.cons_append, noArticleRunsAux, if_pos (hw x (List.mem_cons_self x xs))]
    rw [noArticleRunsAux_word_break xs (acc ++ [x]) r c
      (fun z hz => hw z (List.mem_cons_of_mem x hz)) hc]
    simp

theorem noRuns_remArticlesAux : ∀ (l cur : List Char),
    (∀ c ∈ cur, isWordChar c = true) →
    noArticleRunsAux [] (remArticlesAux cur l) = true
  | [], cur, hcur => by
    rw [remArticlesAux, emitWord]
    split
    · rfl
    next hart =>
      rw [noArticleRunsAux_word cur [] hcur]
      simpa using hart
  | c :: cs, cur, hcur => by
    rw [remArticlesAux]
    split
    next hc =>
      exact noRuns_remArticlesAux cs (cur ++ [c])
        (fun x hx => by
          rcases List.mem_append.mp hx with h' | h'
          · exact hcur x h'
          · rw [List.mem_singleton.mp h']
            exact hc)
    next hc =>
      have hrec := noRuns_remArticlesAux cs [] (by intro x hx; cases hx)
      rw [emitWord]
      split
      · rw [List.nil_append, noArticleRunsAux, if_neg (by simpa using hc)]
        simp only [Bool.and_eq_true]
        exact ⟨by decide, hrec⟩
      next hart =>
        rw [noArticleRunsAux_word_break cur [] (remArticlesAux [] cs) c hcur
          (by simpa using hc)]
        simp only [List.nil_append, Bool.and_eq_true]
        exact ⟨by simpa using hart, hrec⟩

theorem noRuns_dropWhile_ws {l : List Char} (h : noArticleRunsAux [] l = true) :
    noArticleRunsAux [] (l.dropWhile isWsChar) = true := by
  induction l with
  | nil => exact h
  | cons a l ih =>
    rw [List.dropWhile_cons]
    split
    next ha =>
      refine ih ?_
      rw [noArticleRunsAux, if_neg (by simp [ws_not_word ha]), Bool.and_eq_true] at h
      exact h.2
    · exact h

theorem noRuns_of_ws_suffix : ∀ (l : List Char) (acc suffix : List Char),
    (∀ c ∈ suffix, isWsChar c = true) →
    noArticleRunsAux acc (l ++ suffix) = true → noArticleRunsAux acc l = true
  | [], acc, suffix, hsuf, h => by
    rw [List.nil_append] at h
    cases suffix with
    | nil => exact h
    | cons b t =>
      rw [noArticleRunsAux,
        if_neg (by simp [ws_not_word (hsuf b (List.mem_cons_self b t))]),
        Bool.and_eq_true] at h
      rw [noArticleRunsAux]
      exact h.1
  | c :: cs, acc, suffix, hsuf, h => by
    rw [List.cons_append] at h
    rw [noArticleRunsAux] at h ⊢
    split at h
    next hc =>
      rw [if_pos hc]
      exact noRuns_of_ws_suffix cs (acc ++ [c]) suffix hsuf h
    next hc =>
      rw [if_neg hc]
      rw [Bool.and_eq_true] at h
      rw [Bool.and_eq_true]
      exact ⟨h.1, noRuns_of_ws_suffix cs [] suffix hsuf h.2⟩

theorem dropTrailingWs_decomp : ∀ (l : List Char),
    ∃ suffix, l = dropTrailingWs l ++ suffix ∧ ∀ c ∈ suffix, isWsChar c = true
  | [] => ⟨[], rfl, by intro c hc; cases hc⟩
  | a :: l => by
    obtain ⟨suf, hdec, hws⟩ := dropTrailingWs_decomp l
    rw [dropTrailingWs]
    split
    next hcond =>
      refine ⟨a :: l, by simp, ?_⟩
      intro c hc
      rcases List.mem_cons.mp hc with rfl | hc'
      · exact hcond.2
      · rw [hcond.1] at hdec
        simp only [List.nil_append] at hdec
        exact hws c (hdec ▸ hc')
    · exact ⟨suf, by rw [List.cons_append, ← hdec], hws⟩

theorem noRuns_trimChars {l : List Char} (h : noArticleRunsAux [] l = true) :
    noArticleRunsAux [] (trimChars l) = true := by
  unfold trimChars
  have h1 := noRuns_dropWhile_ws h
  obtain ⟨suf, hdec, hws⟩ := dropTrailingWs_decomp (l.dropWhile isWsChar)
  rw [hdec] at h1
  exact noRuns_of_ws_suffix _ [] suf hws h1

/-- A first-pass output that does not end in `s` and carries no double space
is a fixed point of the whole pipeline. -/
theorem normChars_fixed (l : List Char)
    (hs : (normChars l).getLast? ≠ some 's')
    (hd : hasAdjacentSpaces (normChars l) = false) :
    normChars (normChars l) = normChars l := by
  have hcw : ∀ c ∈ normChars l, c ∈ collapseWs (trimChars (l.map Char.toLower)) := by
    intro c hc
    have h1 : c ∈ removeArticles (stripTrailingS (stripPunct
        (collapseWs (trimChars (l.map Char.toLower))))) := mem_trimChars hc
    exact mem_stripPunct (mem_stripTrailingS (mem_removeArticles h1))
  have hlow : ∀ c ∈ normChars l, c.toLower = c := by
    intro c hc
    rcases mem_collapseWs _ c (hcw c hc) with rfl | hmem
    · decide
    · have hmap : c ∈ l.map Char.toLower := mem_trimChars hmem
      obtain ⟨a, -, rfl⟩ := List.mem_map.mp hmap
      exact toLower_toLower a
  have hws : ∀ c ∈ normChars l, isWsChar c = true → c = ' ' := by
    intro c hc hw
    exact ws_mem_collapseWs _ c (hcw c hc) hw
  have hpunct : ∀ c ∈ normChars l, c ∉ punctChars := by
    intro c hc
    exact notPunct_stripPunct (mem_stripTrailingS (mem_removeArticles (mem_trimChars hc)))
  have hhead : ∀ c t, normChars l = c :: t → isWsChar c = false := by
    intro c t h
    exact trimChars_head_not_ws h
  have hlast : ∀ c, (normChars l).getLast? = some c → isWsChar c = false := by
    intro c h
    exact trimChars_getLast_not_ws h
  have hart : noArticleRunsAux [] (normChars l) = true := by
    have h1 : noArticleRunsAux [] (removeArticles (stripTrailingS (stripPunct
        (collapseWs (trimChars (l.map Char.toLower)))))) = true :=
      noRuns_remArticlesAux _ [] (by intro x hx; cases hx)
    exact noRuns_trimChars h1
  have hS : (normChars l).getLast? ≠ some 'S' := by
    intro h
    have hmem := mem_of_getLast? h
    have hfix := hlow _ hmem
    rw [show ('S').toLower = 's' from by decide] at hfix
    exact absurd hfix (by decide)
  show trimChars (removeArticles (stripTrailingS (stripPunct
      (collapseWs (trimChars ((normChars l).map Char.toLower)))))) = normChars l
  rw [map_toLower_eq_self hlow]
  rw [trimChars_eq_self hhead hlast]
  rw [collapseWs_eq_self hws hd]
  rw [stripPunct_eq_self hpunct]
  rw [stripTrailingS_eq_self hs hS]
  rw [removeArticles_eq_self hart]
  rw [trimChars_eq_self hhead hlast]

/-- C6 (counterexample): the normalizer is not idempotent — `"ss"`
normalizes to `"s"`, which normalizes further to `""` (the plural strip
removes one trailing `s` per pass). -/
theorem normalizeAnswer_not_idempotent :
    normalizeAnswer (normalizeAnswer "ss") ≠ normalizeAnswer "ss" := by decide

/-- C6 (amended): `normalizeAnswer` is idempotent on every input whose
normalized form neither ends in the letter `s` (the single-trailing-`s`
strip would shorten it again) nor contains two adjacent spaces (the
article/punctuation removals run after the whitespace collapse and can
leave a double space that a second pass would merge).  On such inputs —
e.g. every counterexample-free answer — `normalize(normalize(x)) =
normalize(x)`. -/
theorem normalizeAnswer_idem_of_tame (x : String)
    (hs : endsWithS (normalizeAnswer x) = false)
    (hd : hasDoubleSpace (normalizeAnswer x) = false) :
    normalizeAnswer (normalizeAnswer x) = normalizeAnswer x := by
  by_cases hx : x = ""
  · rw [hx]
    rfl
  · unfold normalizeAnswer at hs hd ⊢
    rw [if_neg hx] at hs hd ⊢
    by_cases hy : String.mk (normChars x.data) = ""
    · rw [if_pos hy, ← hy]
    · rw [if_neg hy]
      unfold endsWithS at hs
      unfold hasDoubleSpace at hd
      simp only [decide_eq_false_iff_not, not_or] at hs
      show String.mk (normChars (normChars x.data)) = String.mk (normChars x.data)
      rw [normChars_fixed x.data hs.1 hd]

/-- Witness for C6's amended theorem: `"Dogs!"` normalizes to `"dog"`,
which is stable under a second pass. -/
theorem normalizeAnswer_idem_of_tame_witness :
    normalizeAnswer (normalizeAnswer "Dogs!") = normalizeAnswer "Dogs!" :=
  normalizeAnswer_idem_of_tame "Dogs!" (by decide) (by decide)
